import Mathlib

/-!
# Verification of the parallel-stacks graph builder

Shallow embedding of `src/stackGraph.ts` from the `parallel-stacks`
repository: the data model (`StackFrame`, `GraphNode`, `ThreadData`),
the frame-identity test `isSameFrame`, the canonical-id computation,
and the forest construction `buildGraph`, together with theorems about
frame identity, split enforcement, merge invariants and membership
aggregation.

Conventions of the embedding:
* a JS value `frame.source` (an optional object with an optional
  `path` field) is modelled by `Option SourceInfo`;
* `frame.source?.path` is `srcPath frame.source : Option String`
  (`none` models JS `undefined`);
* JS template-literal interpolation of `undefined` produces the string
  `"undefined"`, modelled by `jsStringOfPath`;
* in-place mutation of nodes is modelled by functional update: the
  imperative walk of one thread through the forest becomes the
  recursive function `insertFrames`, and `buildGraph` is a left fold
  of `insertFrames` over the thread list, exactly mirroring the
  source's loop structure.
-/

/-- The `source` object of a DAP stack frame: an optional file path and
an optional display name (only `path` is ever read by the code). -/
structure SourceInfo where
  path : Option String
  name : Option String
deriving DecidableEq, Repr

/-- A raw stack frame as delivered by the debug adapter (the fields the
builder reads: `id`, `name`, `source`, `line`, `column`). -/
structure Frame where
  id : Nat
  name : String
  source : Option SourceInfo
  line : Nat
  column : Nat
deriving DecidableEq, Repr

/-- `StackFrame` of stackGraph.ts: the representative frame stored on a
graph node (raw fields plus the aggregated `threadIds`). -/
structure StackFrame where
  id : Nat
  name : String
  source : Option SourceInfo
  line : Nat
  column : Nat
  threadIds : List Nat
deriving DecidableEq, Repr

/-- `ThreadData` of stackGraph.ts: one thread's id, name and its frame
sequence, already ordered outermost-first. -/
structure ThreadData where
  id : Nat
  name : String
  frames : List Frame
deriving DecidableEq, Repr

/-- `GraphNode` of stackGraph.ts: node id, representative frame,
children, and the parallel membership lists `threadIds`/`threadNames`.
(The optional rendering fields `x`/`y` are never touched by the builder
and are omitted.) -/
inductive GraphNode : Type where
  | mk : String → StackFrame → List GraphNode → List Nat → List String → GraphNode

def GraphNode.id : GraphNode → String
  | .mk i _ _ _ _ => i

def GraphNode.frame : GraphNode → StackFrame
  | .mk _ f _ _ _ => f

def GraphNode.children : GraphNode → List GraphNode
  | .mk _ _ cs _ _ => cs

def GraphNode.threadIds : GraphNode → List Nat
  | .mk _ _ _ ts _ => ts

def GraphNode.threadNames : GraphNode → List String
  | .mk _ _ _ _ tns => tns

/-- Replace a node's children list, keeping every other field.  Models
the mutation `node.children` performed through the `currentLevelNodes`
cursor. -/
def GraphNode.setChildren : GraphNode → List GraphNode → GraphNode
  | .mk i f _ ts tns, cs => .mk i f cs ts tns

/-- `frame.source?.path` — JS optional chaining: `none` when the source
object is absent or carries no path. -/
def srcPath : Option SourceInfo → Option String
  | none => none
  | some s => s.path

/-- `isSameFrame` of stackGraph.ts: name, line, column and
`source?.path` all compared with `===`. -/
def isSameFrame (f1 : StackFrame) (f2 : Frame) : Bool :=
  f1.name == f2.name &&
    f1.line == f2.line &&
    f1.column == f2.column &&
    (srcPath f1.source == srcPath f2.source)

/-- JS string interpolation of `frame.source?.path`: the value
`undefined` prints as the string `"undefined"`. -/
def jsStringOfPath : Option String → String
  | none => "undefined"
  | some p => p

/-- The canonical id computed in `buildGraph`:
the template literal interpolating `source?.path`, `line`, `column`,
`name`, separated by colons. -/
def canonicalId (f : Frame) : String :=
  jsStringOfPath (srcPath f.source) ++ ":" ++ toString f.line ++ ":" ++
    toString f.column ++ ":" ++ f.name

/-- The split marker spliced into the id of a node created under a
split directive. -/
def splitMarker : String := "::split::"

/-- `as` starts with `ps` (character lists). -/
def charsStartWith : List Char → List Char → Bool
  | _, [] => true
  | [], _ :: _ => false
  | c :: cs, p :: ps => c == p && charsStartWith cs ps

/-- `pat` occurs as a contiguous run inside `cs` (character lists). -/
def charsContain (cs pat : List Char) : Bool :=
  if charsStartWith cs pat then true
  else
    match cs with
    | [] => false
    | _ :: cs' => charsContain cs' pat

/-- JS `s.includes(pat)`: substring containment. -/
def strIncludes (s pat : String) : Bool :=
  charsContain s.data pat.data

/-- JS `list.push(x)` guarded by `!list.includes(x)`. -/
def pushUnique (l : List Nat) (x : Nat) : List Nat :=
  if l.contains x then l else l ++ [x]

/-- Lines 133-140 of stackGraph.ts: record the thread on the node
(`threadIds`/`threadNames` under one guard, `frame.threadIds` under
its own guard). -/
def addThread (tid : Nat) (tname : String) : GraphNode → GraphNode
  | .mk i f cs ts tns =>
    let f' : StackFrame :=
      if f.threadIds.contains tid then f
      else { f with threadIds := f.threadIds ++ [tid] }
    if ts.contains tid then .mk i f' cs ts tns
    else .mk i f' cs (ts ++ [tid]) (tns ++ [tname])

/-- First element satisfying `p`, together with its index. -/
def findWithIdx (p : GraphNode → Bool) : List GraphNode → Option (Nat × GraphNode)
  | [] => none
  | n :: ns =>
    if p n then some (0, n)
    else (findWithIdx p ns).map (fun x => (x.1 + 1, x.2))

/-- Line 109 of stackGraph.ts:
`shouldSplit ? undefined : currentLevelNodes.find(n => isSameFrame(n.frame, frame) && !n.id.includes('::split::'))`,
additionally reporting where the match sits. -/
def findNode (split : List String) (f : Frame) (nodes : List GraphNode) :
    Option (Nat × GraphNode) :=
  if split.contains (canonicalId f) then none
  else findWithIdx (fun n => isSameFrame n.frame f && !(strIncludes n.id splitMarker)) nodes

/-- Lines 111-130 of stackGraph.ts: the freshly created node (before
the membership update), with the split-suffixed id when splitting. -/
def freshNode (split : List String) (tid : Nat) (f : Frame) : GraphNode :=
  .mk
    (if split.contains (canonicalId f) then
      canonicalId f ++ splitMarker ++ toString tid
     else canonicalId f)
    (StackFrame.mk f.id f.name f.source f.line f.column [])
    [] [] []

/-- The walk of a single thread through one sibling list (the body of
the `for (const frame of thread.frames)` loop): find or create the
node for the head frame, record the thread on it, then continue with
the remaining frames inside that node's children. -/
def insertFrames (split : List String) (tid : Nat) (tname : String) :
    List Frame → List GraphNode → List GraphNode
  | [], nodes => nodes
  | f :: rest, nodes =>
    match findNode split f nodes with
    | some (i, n) =>
      let n' := addThread tid tname n
      nodes.set i (n'.setChildren (insertFrames split tid tname rest n'.children))
    | none =>
      let b := addThread tid tname (freshNode split tid f)
      nodes ++ [b.setChildren (insertFrames split tid tname rest [])]

/-- `buildGraph` of stackGraph.ts: fold every thread's walk over the
root list, starting from the empty forest. -/
def buildGraph (threadsData : List ThreadData) (splitNodes : List String := []) :
    List GraphNode :=
  threadsData.foldl
    (fun rootNodes thread =>
      insertFrames splitNodes thread.id thread.name thread.frames rootNodes)
    []

/-- The `frame` record stored on a freshly created node (line 118-125):
the raw frame's fields with an empty `threadIds`. -/
def toStackFrame (f : Frame) : StackFrame :=
  StackFrame.mk f.id f.name f.source f.line f.column []

/-! ## Ghost instrumentation

`insertFramesP` is `insertFrames` extended to also record the list of
sibling-list positions the thread's walk descends through (its *path*
in the forest); `buildGraphP` records one such path per input thread.
The forest component is proved equal to the uninstrumented build
(`insertFramesP_fst`, `buildGraphP_fst`), so the recorded paths are a
faithful trace of where `buildGraph` routes each thread. -/

/-- `insertFrames` with the walk's position trace. -/
def insertFramesP (split : List String) (tid : Nat) (tname : String) :
    List Frame → List GraphNode → List GraphNode × List Nat
  | [], nodes => (nodes, [])
  | f :: rest, nodes =>
    match findNode split f nodes with
    | some (i, n) =>
      let n' := addThread tid tname n
      let res := insertFramesP split tid tname rest n'.children
      (nodes.set i (n'.setChildren res.1), i :: res.2)
    | none =>
      let b := addThread tid tname (freshNode split tid f)
      let res := insertFramesP split tid tname rest []
      (nodes ++ [b.setChildren res.1], nodes.length :: res.2)

/-- `buildGraph` with the per-thread position traces. -/
def buildGraphP (threadsData : List ThreadData) (splitNodes : List String) :
    List GraphNode × List (ThreadData × List Nat) :=
  threadsData.foldl
    (fun acc thread =>
      let res := insertFramesP splitNodes thread.id thread.name thread.frames acc.1
      (res.1, acc.2 ++ [(thread, res.2)]))
    ([], [])

/-- Node addressed by a list of sibling-list positions (root list
position first); `[]` addresses no node. -/
def nodeAt (nodes : List GraphNode) : List Nat → Option GraphNode
  | [] => none
  | i :: p =>
    match nodes.get? i with
    | none => none
    | some n =>
      match p with
      | [] => some n
      | _ :: _ => nodeAt n.children p

/-- `p` is an initial segment of `q`: the walk recorded by `q` passes
through the node addressed by `p`. -/
def pathLeads (p q : List Nat) : Prop := ∃ r, q = p ++ r

/-- The fields of a node's representative frame that are fixed at node
creation (everything except the aggregated `threadIds`). -/
def frameCore (sf : StackFrame) : Nat × String × Option SourceInfo × Nat × Nat :=
  (sf.id, sf.name, sf.source, sf.line, sf.column)

/-- `frameCore` of a raw input frame. -/
def frameCoreF (f : Frame) : Nat × String × Option SourceInfo × Nat × Nat :=
  (f.id, f.name, f.source, f.line, f.column)

/-- How a revisited node changes when thread `tid`/`tname` passes
through it again: id and frame core untouched, memberships extended
(if absent). -/
def updRel (tid : Nat) (tname : String) (n₀ n' : GraphNode) : Prop :=
  n'.id = n₀.id ∧
  frameCore n'.frame = frameCore n₀.frame ∧
  n'.threadIds = pushUnique n₀.threadIds tid ∧
  n'.frame.threadIds = pushUnique n₀.frame.threadIds tid ∧
  n'.threadNames =
    (if n₀.threadIds.contains tid then n₀.threadNames else n₀.threadNames ++ [tname])

/-- Facts about a node freshly created for frame `f` by thread
`tid`/`tname`. -/
def newRel (split : List String) (tid : Nat) (tname : String) (f : Frame)
    (n' : GraphNode) : Prop :=
  n'.id =
    (if split.contains (canonicalId f) then
      canonicalId f ++ splitMarker ++ toString tid
     else canonicalId f) ∧
  frameCore n'.frame = frameCoreF f ∧
  n'.threadIds = [tid] ∧
  n'.threadNames = [tname] ∧
  n'.frame.threadIds = [tid]

/-! ## Auxiliary shapes used by the claims -/

/-- All nodes at a given depth of a forest (depth 0 = the root list). -/
def nodesAtDepth : Nat → List GraphNode → List GraphNode
  | 0, nodes => nodes
  | d + 1, nodes => nodes.flatMap (fun n => nodesAtDepth d n.children)

/-- The forest is a single root-to-leaf chain of the given length. -/
def isChainOfLen : List GraphNode → Nat → Bool
  | nodes, 0 => nodes.isEmpty
  | [n], k + 1 => isChainOfLen n.children k
  | _, _ => false

/-- The chain built when a single thread walks into an empty forest:
one node per frame, each carrying only that thread. -/
def chainT (split : List String) (tid : Nat) (tname : String) :
    List Frame → List GraphNode
  | [] => []
  | f :: rest =>
    [GraphNode.mk
      (if split.contains (canonicalId f) then
        canonicalId f ++ splitMarker ++ toString tid
       else canonicalId f)
      (StackFrame.mk f.id f.name f.source f.line f.column [tid])
      (chainT split tid tname rest)
      [tid] [tname]]

/-- A fully merged chain over frame list `fs` whose every node carries
membership lists `tids`/`tnames` (ids are the plain canonical ids). -/
def chainM (tids : List Nat) (tnames : List String) : List Frame → List GraphNode
  | [] => []
  | f :: rest =>
    [GraphNode.mk (canonicalId f)
      (StackFrame.mk f.id f.name f.source f.line f.column tids)
      (chainM tids tnames rest)
      tids tnames]

/-- The call-site key of a node's representative frame, exactly as
`isSameFrame` compares it: optional source path, line, column, name. -/
def frameKey (sf : StackFrame) : Option String × Nat × Nat × String :=
  (srcPath sf.source, sf.line, sf.column, sf.name)

/-- The call-site key of a raw frame. -/
def frameKeyF (f : Frame) : Option String × Nat × Nat × String :=
  (srcPath f.source, f.line, f.column, f.name)

/-- No two siblings that are both free of the split marker represent
the same call site. -/
def nonSplitDistinct (nodes : List GraphNode) : Prop :=
  List.Pairwise
    (fun a b =>
      strIncludes a.id splitMarker = false →
        strIncludes b.id splitMarker = false →
          frameKey a.frame ≠ frameKey b.frame)
    nodes

/-- Every sibling list of the forest (the root list and, recursively,
each node's children list) satisfies `nonSplitDistinct`. -/
inductive Good : List GraphNode → Prop where
  | mk : ∀ nodes, nonSplitDistinct nodes →
      (∀ n ∈ nodes, Good n.children) → Good nodes

/-! ## Definitions taken from the spec's words (for refinement checks) -/

/-- Modelled from the spec: the spec's frame-identity contract, in
which "an absent source path is treated as the empty string".  Used
only to compare the spec's wording against `isSameFrame`. -/
def sameFrameSpec (f1 : StackFrame) (f2 : Frame) : Bool :=
  f1.name == f2.name &&
    f1.line == f2.line &&
    f1.column == f2.column &&
    ((srcPath f1.source).getD "" == (srcPath f2.source).getD "")

/-- Modelled from the spec: the spec's composite canonical-identity
key "(source path or empty string if absent, line, column, function
name)".  Used only to compare the spec's wording against the code. -/
def specKey (sf : StackFrame) : String × Nat × Nat × String :=
  ((srcPath sf.source).getD "", sf.line, sf.column, sf.name)

/-! ## Basic lemmas about the embedded operations -/

@[simp] theorem GraphNode.id_mk (i f cs ts tns) :
    (GraphNode.mk i f cs ts tns).id = i := rfl

@[simp] theorem GraphNode.frame_mk (i f cs ts tns) :
    (GraphNode.mk i f cs ts tns).frame = f := rfl

@[simp] theorem GraphNode.children_mk (i f cs ts tns) :
    (GraphNode.mk i f cs ts tns).children = cs := rfl

@[simp] theorem GraphNode.threadIds_mk (i f cs ts tns) :
    (GraphNode.mk i f cs ts tns).threadIds = ts := rfl

@[simp] theorem GraphNode.threadNames_mk (i f cs ts tns) :
    (GraphNode.mk i f cs ts tns).threadNames = tns := rfl

@[simp] theorem GraphNode.setChildren_id (n : GraphNode) (cs : List GraphNode) :
    (n.setChildren cs).id = n.id := by cases n <;> rfl

@[simp] theorem GraphNode.setChildren_frame (n : GraphNode) (cs : List GraphNode) :
    (n.setChildren cs).frame = n.frame := by cases n <;> rfl

@[simp] theorem GraphNode.setChildren_children (n : GraphNode) (cs : List GraphNode) :
    (n.setChildren cs).children = cs := by cases n <;> rfl

@[simp] theorem GraphNode.setChildren_threadIds (n : GraphNode) (cs : List GraphNode) :
    (n.setChildren cs).threadIds = n.threadIds := by cases n <;> rfl

@[simp] theorem GraphNode.setChildren_threadNames (n : GraphNode) (cs : List GraphNode) :
    (n.setChildren cs).threadNames = n.threadNames := by cases n <;> rfl

@[simp] theorem addThread_id (tid : Nat) (tname : String) (n : GraphNode) :
    (addThread tid tname n).id = n.id := by
  cases n with
  | mk i f cs ts tns => simp only [addThread]; split <;> rfl

@[simp] theorem addThread_children (tid : Nat) (tname : String) (n : GraphNode) :
    (addThread tid tname n).children = n.children := by
  cases n with
  | mk i f cs ts tns => simp only [addThread]; split <;> rfl

theorem addThread_frameCore (tid : Nat) (tname : String) (n : GraphNode) :
    frameCore (addThread tid tname n).frame = frameCore n.frame := by
  cases n with
  | mk i f cs ts tns =>
    simp only [addThread]
    split <;> (simp only [GraphNode.frame_mk] ; split <;> rfl)

theorem addThread_threadIds (tid : Nat) (tname : String) (n : GraphNode) :
    (addThread tid tname n).threadIds = pushUnique n.threadIds tid := by
  cases n with
  | mk i f cs ts tns =>
    simp only [addThread, pushUnique, GraphNode.threadIds_mk]
    split <;> simp_all

theorem addThread_frame_threadIds (tid : Nat) (tname : String) (n : GraphNode) :
    (addThread tid tname n).frame.threadIds = pushUnique n.frame.threadIds tid := by
  cases n with
  | mk i f cs ts tns =>
    simp only [addThread, pushUnique, GraphNode.frame_mk]
    split <;> (split <;> simp_all)

theorem addThread_threadNames (tid : Nat) (tname : String) (n : GraphNode) :
    (addThread tid tname n).threadNames =
      (if n.threadIds.contains tid then n.threadNames else n.threadNames ++ [tname]) := by
  cases n with
  | mk i f cs ts tns =>
    simp only [addThread, GraphNode.threadIds_mk, GraphNode.threadNames_mk]
    split <;> simp_all

theorem addThread_updRel (tid : Nat) (tname : String) (n : GraphNode) :
    updRel tid tname n (addThread tid tname n) := by
  refine ⟨addThread_id .., addThread_frameCore .., addThread_threadIds ..,
    addThread_frame_threadIds .., addThread_threadNames ..⟩

/-- The characterisation of `isSameFrame`: all four call-site fields
agree, the source paths compared as optional values. -/
theorem isSameFrame_iff (f1 : StackFrame) (f2 : Frame) :
    isSameFrame f1 f2 = true ↔
      (f1.name = f2.name ∧ f1.line = f2.line ∧ f1.column = f2.column ∧
        srcPath f1.source = srcPath f2.source) := by
  simp [isSameFrame, and_assoc]

/-- `isSameFrame` is exactly equality of call-site keys. -/
theorem isSameFrame_eq_keys (f1 : StackFrame) (f2 : Frame) :
    isSameFrame f1 f2 = true ↔ frameKey f1 = frameKeyF f2 := by
  rw [isSameFrame_iff]
  simp only [frameKey, frameKeyF, Prod.mk.injEq]
  tauto

/-- A node's stored copy of a frame matches that frame. -/
theorem isSameFrame_toStackFrame (f : Frame) (ts : List Nat) :
    isSameFrame (StackFrame.mk f.id f.name f.source f.line f.column ts) f = true := by
  rw [isSameFrame_iff]; exact ⟨rfl, rfl, rfl, rfl⟩

theorem pushUnique_mem (l : List Nat) (x i : Nat) :
    i ∈ pushUnique l x ↔ i ∈ l ∨ i = x := by
  simp only [pushUnique]
  split
  · next h =>
    have hx : x ∈ l := by simpa using h
    constructor
    · exact Or.inl
    · rintro (h' | rfl)
      · exact h'
      · exact hx
  · simp [or_comm]

/-! ## List position helpers -/

theorem get?_set_same (l : List α) (i : Nat) (b : α) (h : i < l.length) :
    (l.set i b).get? i = some b := by
  simp [List.get?_eq_getElem?, List.getElem?_set_self, h]

theorem get?_set_ne (l : List α) (i j : Nat) (b : α) (h : i ≠ j) :
    (l.set i b).get? j = l.get? j := by
  simp [List.get?_eq_getElem?, List.getElem?_set_ne h]

theorem get?_append_left (l1 l2 : List α) (j : Nat) (h : j < l1.length) :
    (l1 ++ l2).get? j = l1.get? j := by
  simp [List.get?_eq_getElem?, List.getElem?_append, h]

theorem get?_concat_length (l : List α) (b : α) :
    (l ++ [b]).get? l.length = some b := by
  simp [List.get?_eq_getElem?]

theorem get?_len_ge (l : List α) (j : Nat) (h : l.length ≤ j) : l.get? j = none := by
  simp [List.get?_eq_getElem?, List.getElem?_eq_none h]

theorem get?_concat_ge (l : List α) (b : α) (j : Nat) (h : l.length < j) :
    (l ++ [b]).get? j = none := by
  have : (l ++ [b]).length ≤ j := by simp; omega
  exact get?_len_ge _ _ this

theorem get?_some_lt (l : List α) (j : Nat) (b : α) (h : l.get? j = some b) :
    j < l.length := by
  by_contra hlt
  rw [get?_len_ge l j (by omega)] at h
  exact Option.noConfusion h

/-! ## `findWithIdx` lemmas -/

theorem findWithIdx_some (p : GraphNode → Bool) (l : List GraphNode) (i : Nat)
    (n : GraphNode) (h : findWithIdx p l = some (i, n)) :
    l.get? i = some n ∧ p n = true := by
  induction l generalizing i with
  | nil => simp [findWithIdx] at h
  | cons a l ih =>
    rw [findWithIdx] at h
    by_cases hp : p a
    · rw [if_pos hp] at h
      injection h with h
      rw [Prod.ext_iff] at h
      obtain ⟨h1, h2⟩ := h
      subst h1; subst h2
      exact ⟨rfl, hp⟩
    · rw [if_neg hp] at h
      cases hfind : findWithIdx p l with
      | none => rw [hfind] at h; simp at h
      | some x =>
        obtain ⟨i', n'⟩ := x
        rw [hfind] at h
        simp only [Option.map] at h
        injection h with h
        rw [Prod.ext_iff] at h
        obtain ⟨h1, h2⟩ := h
        simp only at h1 h2
        subst h2
        obtain ⟨hg, hpn⟩ := ih i' hfind
        subst h1
        exact ⟨by simpa using hg, hpn⟩

theorem findWithIdx_none (p : GraphNode → Bool) (l : List GraphNode)
    (h : findWithIdx p l = none) : ∀ n ∈ l, p n = false := by
  induction l with
  | nil => intro n hn; simp at hn
  | cons a l ih =>
    rw [findWithIdx] at h
    by_cases hp : p a
    · rw [if_pos hp] at h; exact Option.noConfusion h
    · rw [if_neg hp] at h
      have hfind : findWithIdx p l = none := by
        cases hfind : findWithIdx p l with
        | none => rfl
        | some x => rw [hfind] at h; simp at h
      intro n hn
      rcases List.mem_cons.mp hn with rfl | hn
      · simpa using hp
      · exact ih hfind n hn

/-! ## `pathLeads` lemmas -/

theorem pathLeads_nil_left (q : List Nat) : pathLeads [] q := ⟨q, rfl⟩

theorem pathLeads_nil_right (p : List Nat) : pathLeads p [] ↔ p = [] := by
  constructor
  · rintro ⟨r, hr⟩
    cases p with
    | nil => rfl
    | cons a p => simp at hr
  · rintro rfl; exact ⟨[], rfl⟩

theorem pathLeads_cons (i : Nat) (p : List Nat) (j : Nat) (q : List Nat) :
    pathLeads (i :: p) (j :: q) ↔ i = j ∧ pathLeads p q := by
  constructor
  · rintro ⟨r, hr⟩
    simp only [List.cons_append] at hr
    injection hr with h1 h2
    exact ⟨h1.symm, r, h2⟩
  · rintro ⟨rfl, r, rfl⟩
    exact ⟨r, rfl⟩

theorem pathLeads_self (p : List Nat) : pathLeads p p := ⟨[], by simp⟩

theorem pathLeads_length (p q : List Nat) (h : pathLeads p q) :
    p.length ≤ q.length := by
  obtain ⟨r, rfl⟩ := h
  simp

/-! ## `nodeAt` lemmas -/

@[simp] theorem nodeAt_nil_path (nodes : List GraphNode) : nodeAt nodes [] = none := by
  simp [nodeAt]

theorem nodeAt_singleton (nodes : List GraphNode) (i : Nat) :
    nodeAt nodes [i] = nodes.get? i := by
  simp only [nodeAt]
  match nodes.get? i with
  | none => rfl
  | some n => rfl

theorem nodeAt_cons_cons (nodes : List GraphNode) (i j : Nat) (p : List Nat) :
    nodeAt nodes (i :: j :: p) =
      (match nodes.get? i with
       | none => none
       | some n => nodeAt n.children (j :: p)) := by
  simp only [nodeAt]

@[simp] theorem nodeAt_empty_forest (p : List Nat) : nodeAt [] p = none := by
  cases p with
  | nil => simp
  | cons i p => simp only [nodeAt]; cases p <;> rfl

/-! ## Unfolding equations for the builder -/

theorem findNode_some (split : List String) (f : Frame) (nodes : List GraphNode)
    (i : Nat) (n : GraphNode) (h : findNode split f nodes = some (i, n)) :
    nodes.get? i = some n ∧ isSameFrame n.frame f = true ∧
      strIncludes n.id splitMarker = false ∧
      split.contains (canonicalId f) = false := by
  rw [findNode] at h
  by_cases hs : split.contains (canonicalId f)
  · rw [if_pos hs] at h; exact Option.noConfusion h
  · rw [if_neg hs] at h
    obtain ⟨h1, h2⟩ := findWithIdx_some _ _ _ _ h
    rw [Bool.and_eq_true, Bool.not_eq_true'] at h2
    exact ⟨h1, h2.1, h2.2, by simpa using hs⟩

theorem findNode_of_split (split : List String) (f : Frame) (nodes : List GraphNode)
    (h : split.contains (canonicalId f) = true) : findNode split f nodes = none := by
  rw [findNode, if_pos h]

theorem findNode_none_pred (split : List String) (f : Frame) (nodes : List GraphNode)
    (hs : split.contains (canonicalId f) = false)
    (h : findNode split f nodes = none) :
    ∀ n ∈ nodes, (isSameFrame n.frame f && !(strIncludes n.id splitMarker)) = false := by
  rw [findNode] at h
  rw [if_neg (fun hc => by rw [hc] at hs; exact Bool.noConfusion hs)] at h
  exact findWithIdx_none _ _ h

theorem insertFrames_nil (split : List String) (tid : Nat) (tname : String)
    (nodes : List GraphNode) : insertFrames split tid tname [] nodes = nodes := rfl

theorem insertFrames_cons_found (split : List String) (tid : Nat) (tname : String)
    (f : Frame) (rest : List Frame) (nodes : List GraphNode) (i : Nat) (n : GraphNode)
    (h : findNode split f nodes = some (i, n)) :
    insertFrames split tid tname (f :: rest) nodes =
      nodes.set i ((addThread tid tname n).setChildren
        (insertFrames split tid tname rest (addThread tid tname n).children)) := by
  rw [insertFrames, h]

theorem insertFrames_cons_new (split : List String) (tid : Nat) (tname : String)
    (f : Frame) (rest : List Frame) (nodes : List GraphNode)
    (h : findNode split f nodes = none) :
    insertFrames split tid tname (f :: rest) nodes =
      nodes ++ [(addThread tid tname (freshNode split tid f)).setChildren
        (insertFrames split tid tname rest [])] := by
  rw [insertFrames, h]

theorem insertFramesP_nil (split : List String) (tid : Nat) (tname : String)
    (nodes : List GraphNode) : insertFramesP split tid tname [] nodes = (nodes, []) := rfl

theorem insertFramesP_cons_found (split : List String) (tid : Nat) (tname : String)
    (f : Frame) (rest : List Frame) (nodes : List GraphNode) (i : Nat) (n : GraphNode)
    (h : findNode split f nodes = some (i, n)) :
    insertFramesP split tid tname (f :: rest) nodes =
      (nodes.set i ((addThread tid tname n).setChildren
          (insertFramesP split tid tname rest (addThread tid tname n).children).1),
        i :: (insertFramesP split tid tname rest (addThread tid tname n).children).2) := by
  rw [insertFramesP, h]

theorem insertFramesP_cons_new (split : List String) (tid : Nat) (tname : String)
    (f : Frame) (rest : List Frame) (nodes : List GraphNode)
    (h : findNode split f nodes = none) :
    insertFramesP split tid tname (f :: rest) nodes =
      (nodes ++ [(addThread tid tname (freshNode split tid f)).setChildren
          (insertFramesP split tid tname rest []).1],
        nodes.length :: (insertFramesP split tid tname rest []).2) := by
  rw [insertFramesP, h]

/-- The instrumented walk computes the same forest as the plain walk. -/
theorem insertFramesP_fst (split : List String) (tid : Nat) (tname : String) :
    ∀ (fs : List Frame) (nodes : List GraphNode),
      (insertFramesP split tid tname fs nodes).1 = insertFrames split tid tname fs nodes := by
  intro fs
  induction fs with
  | nil => intro nodes; rfl
  | cons f rest ih =>
    intro nodes
    cases hfind : findNode split f nodes with
    | none =>
      rw [insertFramesP_cons_new _ _ _ _ _ _ hfind,
        insertFrames_cons_new _ _ _ _ _ _ hfind, ih]
    | some x =>
      obtain ⟨i, n⟩ := x
      rw [insertFramesP_cons_found _ _ _ _ _ _ _ _ hfind,
        insertFrames_cons_found _ _ _ _ _ _ _ _ hfind, ih]

theorem buildGraphP_fst_aux (splitNodes : List String) :
    ∀ (ts : List ThreadData) (start : List GraphNode) (acc : List (ThreadData × List Nat)),
      (List.foldl
        (fun acc thread =>
          let res := insertFramesP splitNodes thread.id thread.name thread.frames acc.1
          (res.1, acc.2 ++ [(thread, res.2)]))
        (start, acc) ts).1 =
      List.foldl
        (fun rootNodes thread =>
          insertFrames splitNodes thread.id thread.name thread.frames rootNodes)
        start ts := by
  intro ts
  induction ts with
  | nil => intro start acc; rfl
  | cons t ts ih =>
    intro start acc
    simp only [List.foldl_cons]
    rw [show (insertFramesP splitNodes t.id t.name t.frames start).1 =
        insertFrames splitNodes t.id t.name t.frames start from insertFramesP_fst ..] at *
    exact ih _ _

/-- The instrumented build computes the same forest as `buildGraph`. -/
theorem buildGraphP_fst (threadsData : List ThreadData) (splitNodes : List String) :
    (buildGraphP threadsData splitNodes).1 = buildGraph threadsData splitNodes := by
  rw [buildGraph, buildGraphP]
  exact buildGraphP_fst_aux splitNodes threadsData [] []

theorem updRel_setChildren (tid : Nat) (tname : String) (a b : GraphNode)
    (cs : List GraphNode) (h : updRel tid tname a b) :
    updRel tid tname a (b.setChildren cs) := by
  obtain ⟨h1, h2, h3, h4, h5⟩ := h
  exact ⟨by simpa using h1, by simpa using h2, by simpa using h3,
    by simpa using h4, by simpa using h5⟩

theorem newRel_fresh (split : List String) (tid : Nat) (tname : String) (f : Frame)
    (cs : List GraphNode) :
    newRel split tid tname f ((addThread tid tname (freshNode split tid f)).setChildren cs) := by
  refine ⟨?_, ?_, ?_, ?_, ?_⟩ <;>
    simp [freshNode, addThread, frameCore, frameCoreF, newRel]

theorem nodeAt_cons_some (nodes : List GraphNode) (i : Nat) (n : GraphNode)
    (j : Nat) (p : List Nat) (h : nodes.get? i = some n) :
    nodeAt nodes (i :: j :: p) = nodeAt n.children (j :: p) := by
  rw [nodeAt_cons_cons, h]

theorem nodeAt_cons_none (nodes : List GraphNode) (i : Nat)
    (j : Nat) (p : List Nat) (h : nodes.get? i = none) :
    nodeAt nodes (i :: j :: p) = none := by
  rw [nodeAt_cons_cons, h]

/-- The fundamental positional description of one thread's walk
(`insertFramesP`): positions off the recorded path are untouched, and
every position on the recorded path holds either the previous node
with this thread added to its memberships, or a freshly created node
for the frame at that depth, owned by this thread alone. -/
theorem insertFramesP_spec (split : List String) (tid : Nat) (tname : String) :
    ∀ (fs : List Frame) (nodes : List GraphNode),
      (∀ p : List Nat, ¬ pathLeads p (insertFramesP split tid tname fs nodes).2 →
          nodeAt (insertFramesP split tid tname fs nodes).1 p = nodeAt nodes p)
      ∧ (∀ p : List Nat, p ≠ [] → pathLeads p (insertFramesP split tid tname fs nodes).2 →
          ∃ n', nodeAt (insertFramesP split tid tname fs nodes).1 p = some n' ∧
            ((∃ n₀, nodeAt nodes p = some n₀ ∧ updRel tid tname n₀ n')
             ∨ (nodeAt nodes p = none ∧
                 ∃ f, fs.get? (p.length - 1) = some f ∧ newRel split tid tname f n'))) := by
  intro fs
  induction fs with
  | nil =>
    intro nodes
    constructor
    · intro p _; rfl
    · intro p hne hp
      rw [insertFramesP_nil] at hp
      exact absurd ((pathLeads_nil_right p).mp hp) hne
  | cons f rest ih =>
    intro nodes
    cases hfind : findNode split f nodes with
    | some x =>
      obtain ⟨i, n⟩ := x
      obtain ⟨hgi, hsame, hmark, hnsplit⟩ := findNode_some _ _ _ _ _ hfind
      have hilt : i < nodes.length := get?_some_lt _ _ _ hgi
      obtain ⟨ihoff, ihon⟩ := ih (addThread tid tname n).children
      rw [insertFramesP_cons_found split tid tname f rest nodes i n hfind]
      dsimp only
      constructor
      · -- off-path positions unchanged
        intro p hnp
        cases p with
        | nil => simp
        | cons i' p' =>
          by_cases hii : i' = i
          · subst hii
            cases p' with
            | nil =>
              exact absurd ((pathLeads_cons ..).mpr ⟨rfl, pathLeads_nil_left _⟩) hnp
            | cons j p'' =>
              have hnp' : ¬ pathLeads (j :: p'') (insertFramesP split tid tname rest
                  (addThread tid tname n).children).2 :=
                fun hl => hnp ((pathLeads_cons ..).mpr ⟨rfl, hl⟩)
              rw [nodeAt_cons_some _ i' _ j p'' (by rw [get?_set_same _ _ _ hilt]),
                GraphNode.setChildren_children,
                ihoff _ hnp', addThread_children,
                nodeAt_cons_some _ i' n j p'' hgi]
          · have hne' : i ≠ i' := fun he => hii he.symm
            cases p' with
            | nil => rw [nodeAt_singleton, nodeAt_singleton, get?_set_ne _ _ _ _ hne']
            | cons j p'' =>
              rw [nodeAt_cons_cons, nodeAt_cons_cons, get?_set_ne _ _ _ _ hne']
      · -- on-path positions: updated or created
        intro p hne hp
        cases p with
        | nil => exact absurd rfl hne
        | cons i' p' =>
          obtain ⟨hii, hp'⟩ := (pathLeads_cons ..).mp hp
          subst hii
          cases p' with
          | nil =>
            refine ⟨(addThread tid tname n).setChildren
              (insertFramesP split tid tname rest (addThread tid tname n).children).1,
              ?_, Or.inl ⟨n, ?_, ?_⟩⟩
            · rw [nodeAt_singleton, get?_set_same _ _ _ hilt]
            · rw [nodeAt_singleton]; exact hgi
            · exact updRel_setChildren _ _ _ _ _ (addThread_updRel ..)
          | cons j p'' =>
            obtain ⟨n'', hn''at, hcase⟩ := ihon (j :: p'') (by simp) hp'
            refine ⟨n'', ?_, ?_⟩
            · rw [nodeAt_cons_some _ i' _ j p'' (by rw [get?_set_same _ _ _ hilt]),
                GraphNode.setChildren_children]
              exact hn''at
            · rcases hcase with ⟨n₀, hat, hrel⟩ | ⟨hnone, f', hf', hnew⟩
              · left
                refine ⟨n₀, ?_, hrel⟩
                rw [nodeAt_cons_some _ i' n j p'' hgi]
                rw [addThread_children] at hat
                exact hat
              · right
                constructor
                · rw [nodeAt_cons_some _ i' n j p'' hgi]
                  rw [addThread_children] at hnone
                  exact hnone
                · refine ⟨f', ?_, hnew⟩
                  have hidx : (j :: p'').length - 1 = p''.length := by simp
                  rw [hidx] at hf'
                  have : (i' :: j :: p'').length - 1 = p''.length + 1 := by simp
                  rw [this]
                  simpa using hf'
    | none =>
      obtain ⟨ihoff, ihon⟩ := ih []
      rw [insertFramesP_cons_new split tid tname f rest nodes hfind]
      dsimp only
      constructor
      · intro p hnp
        cases p with
        | nil => simp
        | cons i' p' =>
          by_cases hii : i' = nodes.length
          · subst hii
            cases p' with
            | nil =>
              exact absurd ((pathLeads_cons ..).mpr ⟨rfl, pathLeads_nil_left _⟩) hnp
            | cons j p'' =>
              have hnp' : ¬ pathLeads (j :: p'')
                  (insertFramesP split tid tname rest []).2 :=
                fun hl => hnp ((pathLeads_cons ..).mpr ⟨rfl, hl⟩)
              rw [nodeAt_cons_some _ nodes.length _ j p'' (by rw [get?_concat_length]),
                GraphNode.setChildren_children, ihoff _ hnp',
                nodeAt_empty_forest,
                nodeAt_cons_none _ nodes.length j p'' (get?_len_ge _ _ le_rfl)]
          · by_cases hlt : i' < nodes.length
            · cases p' with
              | nil =>
                rw [nodeAt_singleton, nodeAt_singleton, get?_append_left _ _ _ hlt]
              | cons j p'' =>
                rw [nodeAt_cons_cons, nodeAt_cons_cons, get?_append_left _ _ _ hlt]
            · have hgt : nodes.length < i' := by omega
              cases p' with
              | nil =>
                rw [nodeAt_singleton, nodeAt_singleton, get?_concat_ge _ _ _ hgt,
                  get?_len_ge _ _ (by omega)]
              | cons j p'' =>
                rw [nodeAt_cons_none _ i' j p'' (get?_concat_ge _ _ _ hgt),
                  nodeAt_cons_none _ i' j p'' (get?_len_ge _ _ (by omega))]
      · intro p hne hp
        cases p with
        | nil => exact absurd rfl hne
        | cons i' p' =>
          obtain ⟨hii, hp'⟩ := (pathLeads_cons ..).mp hp
          subst hii
          cases p' with
          | nil =>
            refine ⟨(addThread tid tname (freshNode split tid f)).setChildren
                (insertFramesP split tid tname rest []).1,
              ?_, Or.inr ⟨?_, f, rfl, newRel_fresh split tid tname f _⟩⟩
            · rw [nodeAt_singleton, get?_concat_length]
            · rw [nodeAt_singleton]; exact get?_len_ge _ _ le_rfl
          | cons j p'' =>
            obtain ⟨n'', hn''at, hcase⟩ := ihon (j :: p'') (by simp) hp'
            rcases hcase with ⟨n₀, hat, _⟩ | ⟨_, f', hf', hnew⟩
            · rw [nodeAt_empty_forest] at hat
              exact Option.noConfusion hat
            · refine ⟨n'', ?_, Or.inr ⟨?_, f', ?_, hnew⟩⟩
              · rw [nodeAt_cons_some _ nodes.length _ j p'' (by rw [get?_concat_length]),
                  GraphNode.setChildren_children]
                exact hn''at
              · exact nodeAt_cons_none _ nodes.length j p'' (get?_len_ge _ _ le_rfl)
              · have hidx : (j :: p'').length - 1 = p''.length := by simp
                rw [hidx] at hf'
                have : (nodes.length :: j :: p'').length - 1 = p''.length + 1 := by simp
                rw [this]
                simpa using hf'

/-- Membership bookkeeping for a single thread's walk: after inserting
thread `t`, a node's `threadIds` describes exactly the recorded walks
(the previous ones plus `t`'s) that pass through its position. -/
theorem insert_membership_step (splitNodes : List String) (t : ThreadData)
    (F : List GraphNode) (P : List (ThreadData × List Nat))
    (ha : ∀ p n, nodeAt F p = some n →
      ∀ i, i ∈ n.threadIds ↔ ∃ pr ∈ P, pr.1.id = i ∧ pathLeads p pr.2)
    (hb : ∀ pr ∈ P, ∀ p, p ≠ [] → pathLeads p pr.2 → (nodeAt F p).isSome = true) :
    (∀ p n, nodeAt (insertFramesP splitNodes t.id t.name t.frames F).1 p = some n →
      ∀ i, i ∈ n.threadIds ↔
        ∃ pr ∈ P ++ [(t, (insertFramesP splitNodes t.id t.name t.frames F).2)],
          pr.1.id = i ∧ pathLeads p pr.2) ∧
    (∀ pr ∈ P ++ [(t, (insertFramesP splitNodes t.id t.name t.frames F).2)],
      ∀ p, p ≠ [] → pathLeads p pr.2 →
        (nodeAt (insertFramesP splitNodes t.id t.name t.frames F).1 p).isSome = true) := by
  obtain ⟨soff, son⟩ := insertFramesP_spec splitNodes t.id t.name t.frames F
  constructor
  · intro p n' hat i
    by_cases hpl : pathLeads p (insertFramesP splitNodes t.id t.name t.frames F).2
    · have hpne : p ≠ [] := by
        rintro rfl
        rw [nodeAt_nil_path] at hat
        exact Option.noConfusion hat
      obtain ⟨n2, hn2, hcase⟩ := son p hpne hpl
      rw [hat] at hn2
      obtain rfl := Option.some.inj hn2
      rcases hcase with ⟨n₀, h₀, hrel⟩ | ⟨hnone, f, _, hnew⟩
      · rw [hrel.2.2.1, pushUnique_mem, ha p n₀ h₀ i]
        constructor
        · rintro (⟨pr, hpr, hid, hpl'⟩ | rfl)
          · exact ⟨pr, List.mem_append_left _ hpr, hid, hpl'⟩
          · exact ⟨(t, _), List.mem_append_right _ (by simp), rfl, hpl⟩
        · rintro ⟨pr, hpr, hid, hpl'⟩
          rcases List.mem_append.mp hpr with h | h
          · exact Or.inl ⟨pr, h, hid, hpl'⟩
          · obtain rfl : pr = (t, _) := by simpa using h
            exact Or.inr hid.symm
      · rw [hnew.2.2.1]
        simp only [List.mem_singleton]
        constructor
        · rintro rfl
          exact ⟨(t, _), List.mem_append_right _ (by simp), rfl, hpl⟩
        · rintro ⟨pr, hpr, hid, hpl'⟩
          rcases List.mem_append.mp hpr with h | h
          · have := hb pr h p hpne hpl'
            rw [hnone] at this
            simp at this
          · obtain rfl : pr = (t, _) := by simpa using h
            exact hid.symm
    · rw [soff p hpl] at hat
      rw [ha p n' hat i]
      constructor
      · rintro ⟨pr, hpr, hid, hpl'⟩
        exact ⟨pr, List.mem_append_left _ hpr, hid, hpl'⟩
      · rintro ⟨pr, hpr, hid, hpl'⟩
        rcases List.mem_append.mp hpr with h | h
        · exact ⟨pr, h, hid, hpl'⟩
        · obtain rfl : pr = (t, _) := by simpa using h
          exact absurd hpl' hpl
  · intro pr hpr p hpne hpl'
    rcases List.mem_append.mp hpr with h | h
    · by_cases hpl : pathLeads p (insertFramesP splitNodes t.id t.name t.frames F).2
      · obtain ⟨n2, hn2, _⟩ := son p hpne hpl
        rw [hn2]; rfl
      · rw [soff p hpl]
        exact hb pr h p hpne hpl'
    · obtain rfl : pr = (t, _) := by simpa using h
      obtain ⟨n2, hn2, _⟩ := son p hpne hpl'
      rw [hn2]; rfl

/-- The fold-level membership invariant for `buildGraphP`. -/
theorem buildGraphP_membership_aux (splitNodes : List String) :
    ∀ (ts : List ThreadData) (F : List GraphNode) (P : List (ThreadData × List Nat)),
      (∀ p n, nodeAt F p = some n →
        ∀ i, i ∈ n.threadIds ↔ ∃ pr ∈ P, pr.1.id = i ∧ pathLeads p pr.2) →
      (∀ pr ∈ P, ∀ p, p ≠ [] → pathLeads p pr.2 → (nodeAt F p).isSome = true) →
      (∀ p n, nodeAt (List.foldl
            (fun acc thread =>
              let res := insertFramesP splitNodes thread.id thread.name thread.frames acc.1
              (res.1, acc.2 ++ [(thread, res.2)])) (F, P) ts).1 p = some n →
        ∀ i, i ∈ n.threadIds ↔
          ∃ pr ∈ (List.foldl
            (fun acc thread =>
              let res := insertFramesP splitNodes thread.id thread.name thread.frames acc.1
              (res.1, acc.2 ++ [(thread, res.2)])) (F, P) ts).2,
            pr.1.id = i ∧ pathLeads p pr.2) := by
  intro ts
  induction ts with
  | nil => intro F P ha _; exact ha
  | cons t ts ih =>
    intro F P ha hb
    obtain ⟨ha', hb'⟩ := insert_membership_step splitNodes t F P ha hb
    simpa using ih _ _ ha' hb'

/-- Thread membership of every node of `buildGraph`, in terms of the
recorded walks of `buildGraphP`. -/
theorem buildGraph_membership (threadsData : List ThreadData) (splitNodes : List String)
    (p : List Nat) (n : GraphNode)
    (h : nodeAt (buildGraph threadsData splitNodes) p = some n) :
    ∀ i, i ∈ n.threadIds ↔
      ∃ pr ∈ (buildGraphP threadsData splitNodes).2, pr.1.id = i ∧ pathLeads p pr.2 := by
  rw [← buildGraphP_fst] at h
  rw [buildGraphP] at h ⊢
  refine buildGraphP_membership_aux splitNodes threadsData [] [] ?_ ?_ p n h
  · intro p' n' h'
    rw [nodeAt_empty_forest] at h'
    exact Option.noConfusion h'
  · intro pr hpr
    simp at hpr

/-- One thread's walk keeps `frame.threadIds = threadIds` at every
position. -/
theorem insert_frame_tids_step (splitNodes : List String) (tid : Nat) (tname : String)
    (fs : List Frame) (F : List GraphNode)
    (h : ∀ p n, nodeAt F p = some n → n.frame.threadIds = n.threadIds) :
    ∀ p n, nodeAt (insertFrames splitNodes tid tname fs F) p = some n →
      n.frame.threadIds = n.threadIds := by
  intro p n hat
  rw [← insertFramesP_fst] at hat
  obtain ⟨soff, son⟩ := insertFramesP_spec splitNodes tid tname fs F
  by_cases hpl : pathLeads p (insertFramesP splitNodes tid tname fs F).2
  · have hpne : p ≠ [] := by
      rintro rfl
      rw [nodeAt_nil_path] at hat
      exact Option.noConfusion hat
    obtain ⟨n2, hn2, hcase⟩ := son p hpne hpl
    rw [hat] at hn2
    obtain rfl := Option.some.inj hn2
    rcases hcase with ⟨n₀, h₀, hrel⟩ | ⟨_, f, _, hnew⟩
    · rw [hrel.2.2.1, hrel.2.2.2.1, h p n₀ h₀]
    · rw [hnew.2.2.1, hnew.2.2.2.2]
  · rw [soff p hpl] at hat
    exact h p n hat

/-- A later thread's walk never changes an existing node's identity or
its representative frame's fixed fields. -/
theorem insertFrames_preserves_core (splitNodes : List String) (tid : Nat)
    (tname : String) (fs : List Frame) (F : List GraphNode) (p : List Nat)
    (n : GraphNode) (h : nodeAt F p = some n) :
    ∃ n', nodeAt (insertFrames splitNodes tid tname fs F) p = some n' ∧
      n'.id = n.id ∧ frameCore n'.frame = frameCore n.frame := by
  rw [← insertFramesP_fst]
  obtain ⟨soff, son⟩ := insertFramesP_spec splitNodes tid tname fs F
  have hpne : p ≠ [] := by
    rintro rfl
    rw [nodeAt_nil_path] at h
    exact Option.noConfusion h
  by_cases hpl : pathLeads p (insertFramesP splitNodes tid tname fs F).2
  · obtain ⟨n2, hn2, hcase⟩ := son p hpne hpl
    rcases hcase with ⟨n₀, h₀, hrel⟩ | ⟨hnone, _, _, _⟩
    · rw [h] at h₀
      obtain rfl := Option.some.inj h₀
      exact ⟨n2, hn2, hrel.1, hrel.2.1⟩
    · rw [hnone] at h
      exact Option.noConfusion h
  · exact ⟨n, by rw [soff p hpl]; exact h, rfl, rfl⟩

/-! ## Machinery for the sibling-uniqueness invariant -/

theorem frameKey_of_core (a b : StackFrame) (h : frameCore a = frameCore b) :
    frameKey a = frameKey b := by
  simp only [frameCore, Prod.mk.injEq] at h
  simp only [frameKey, h.1, h.2.1, h.2.2.1, h.2.2.2.1, h.2.2.2.2]

theorem charsStartWith_append_self (ps ys : List Char) :
    charsStartWith (ps ++ ys) ps = true := by
  induction ps with
  | nil => cases ys <;> rfl
  | cons c cs ih => simp [charsStartWith, ih]

theorem charsContain_cons_of (c : Char) (cs ps : List Char)
    (h : charsContain cs ps = true) : charsContain (c :: cs) ps = true := by
  rw [charsContain.eq_def]
  split
  · rfl
  · exact h

theorem charsContain_append_marker (xs ps ys : List Char) :
    charsContain (xs ++ (ps ++ ys)) ps = true := by
  induction xs with
  | nil =>
    rw [List.nil_append, charsContain.eq_def,
      if_pos (charsStartWith_append_self ps ys)]
  | cons c cs ih => exact charsContain_cons_of _ _ _ ih

theorem strIncludes_append_marker (x y : String) :
    strIncludes (x ++ (splitMarker ++ y)) splitMarker = true := by
  rw [strIncludes]
  have hd : (x ++ (splitMarker ++ y)).data = x.data ++ (splitMarker.data ++ y.data) := by
    simp [String.data_append]
  rw [hd]
  exact charsContain_append_marker _ _ _

theorem frameKey_fresh (split : List String) (tid : Nat) (tname : String) (f : Frame)
    (cs : List GraphNode) :
    frameKey ((addThread tid tname (freshNode split tid f)).setChildren cs).frame =
      frameKeyF f := by
  simp [freshNode, addThread, frameKey, frameKeyF]

theorem list_get?_mem (l : List α) (i : Nat) (a : α) (h : l.get? i = some a) : a ∈ l := by
  induction l generalizing i with
  | nil => simp [List.get?] at h
  | cons x l ih =>
    cases i with
    | zero =>
      rw [show (x :: l).get? 0 = some x from rfl] at h
      rw [← Option.some.inj h]
      exact List.mem_cons_self x l
    | succ j =>
      exact List.mem_cons_of_mem _ (ih j (by simpa using h))

theorem list_mem_set (l : List α) (i : Nat) (b a : α) (h : a ∈ l.set i b) :
    a = b ∨ a ∈ l := by
  induction l generalizing i with
  | nil => simp [List.set] at h
  | cons x l ih =>
    cases i with
    | zero =>
      rcases List.mem_cons.mp h with rfl | h
      · exact Or.inl rfl
      · exact Or.inr (List.mem_cons_of_mem _ h)
    | succ j =>
      rcases List.mem_cons.mp h with rfl | h
      · exact Or.inr (List.mem_cons_self _ _)
      · rcases ih j h with h | h
        · exact Or.inl h
        · exact Or.inr (List.mem_cons_of_mem _ h)

/-- Replacing a list element by one the relation cannot distinguish
preserves pairwiseness. -/
theorem pairwise_set_congr (R : GraphNode → GraphNode → Prop) (l : List GraphNode)
    (i : Nat) (a b : GraphNode) (hget : l.get? i = some a)
    (hab : ∀ c, (R c a → R c b) ∧ (R a c → R b c))
    (h : List.Pairwise R l) : List.Pairwise R (l.set i b) := by
  induction l generalizing i with
  | nil => simpa using h
  | cons x l ih =>
    cases i with
    | zero =>
      rw [show (x :: l).get? 0 = some x from rfl] at hget
      obtain rfl := Option.some.inj hget
      rw [List.set_cons_zero]
      rw [List.pairwise_cons] at h ⊢
      exact ⟨fun c hc => (hab c).2 (h.1 c hc), h.2⟩
    | succ j =>
      rw [List.set_cons_succ]
      rw [List.pairwise_cons] at h ⊢
      refine ⟨?_, ih j (by simpa using hget) h.2⟩
      intro c hc
      rcases list_mem_set _ _ _ _ hc with rfl | hc
      · exact (hab x).1 (h.1 a (list_get?_mem _ _ _ (by simpa using hget)))
      · exact h.1 c hc

theorem strIncludes_marker_mid (x y : String) :
    strIncludes (x ++ splitMarker ++ y) splitMarker = true := by
  have hd : (x ++ splitMarker ++ y).data = x.data ++ (splitMarker.data ++ y.data) := by
    simp [String.data_append]
  rw [strIncludes, hd]
  exact charsContain_append_marker _ _ _

theorem good_nil : Good [] := by
  refine Good.mk [] ?_ ?_
  · exact List.Pairwise.nil
  · intro n hn; simp at hn

/-- One thread's walk preserves sibling call-site uniqueness at every
level of the forest. -/
theorem insertFrames_good (split : List String) (tid : Nat) (tname : String) :
    ∀ (fs : List Frame) (nodes : List GraphNode), Good nodes →
      Good (insertFrames split tid tname fs nodes) := by
  intro fs
  induction fs with
  | nil => intro nodes h; exact h
  | cons f rest ih =>
    intro nodes hg
    cases hg with
    | mk _ hpw hch =>
    simp only [nonSplitDistinct] at hpw
    cases hfind : findNode split f nodes with
    | some x =>
      obtain ⟨i, n⟩ := x
      obtain ⟨hgi, hsame, hmark, hnsplit⟩ := findNode_some _ _ _ _ _ hfind
      rw [insertFrames_cons_found split tid tname f rest nodes i n hfind]
      refine Good.mk _ ?_ ?_
      · simp only [nonSplitDistinct]
        refine pairwise_set_congr _ nodes i n _ hgi ?_ hpw
        have hid : ((addThread tid tname n).setChildren
            (insertFrames split tid tname rest (addThread tid tname n).children)).id
              = n.id := by simp
        have hkey : frameKey ((addThread tid tname n).setChildren
            (insertFrames split tid tname rest (addThread tid tname n).children)).frame
              = frameKey n.frame := by
          refine frameKey_of_core _ _ ?_
          rw [GraphNode.setChildren_frame, addThread_frameCore]
        intro c
        constructor
        · intro hr hmc hmb
          rw [hkey]
          exact hr hmc (by rwa [hid] at hmb)
        · intro hr hmb hmc
          rw [hid] at hmb
          have := hr hmb hmc
          rwa [hkey]
      · intro m hm
        rcases list_mem_set _ _ _ _ hm with rfl | hm
        · rw [GraphNode.setChildren_children]
          apply ih
          rw [addThread_children]
          exact hch n (list_get?_mem _ _ _ hgi)
        · exact hch m hm
    | none =>
      rw [insertFrames_cons_new split tid tname f rest nodes hfind]
      refine Good.mk _ ?_ ?_
      · simp only [nonSplitDistinct]
        rw [List.pairwise_append]
        refine ⟨hpw, List.pairwise_singleton _ _, ?_⟩
        intro a ha b hb
        obtain rfl : b = (addThread tid tname (freshNode split tid f)).setChildren
            (insertFrames split tid tname rest []) := by simpa using hb
        intro hma hmb
        by_cases hs : split.contains (canonicalId f) = true
        · exfalso
          have hidb : ((addThread tid tname (freshNode split tid f)).setChildren
              (insertFrames split tid tname rest [])).id =
                canonicalId f ++ splitMarker ++ toString tid := by
            rw [GraphNode.setChildren_id, addThread_id]
            simp only [freshNode, GraphNode.id_mk]
            rw [if_pos hs]
          rw [hidb, strIncludes_marker_mid] at hmb
          exact Bool.noConfusion hmb
        · have hs' : split.contains (canonicalId f) = false := Bool.eq_false_iff.mpr hs
          have hkeyb : frameKey ((addThread tid tname (freshNode split tid f)).setChildren
              (insertFrames split tid tname rest [])).frame = frameKeyF f :=
            frameKey_fresh split tid tname f _
          have hps := findNode_none_pred split f nodes hs' hfind a ha
          rw [hma] at hps
          simp only [Bool.not_false, Bool.and_true] at hps
          rw [hkeyb]
          intro he
          rw [(isSameFrame_eq_keys a.frame f).mpr he] at hps
          exact Bool.noConfusion hps
      · intro m hm
        rcases List.mem_append.mp hm with hm | hm
        · exact hch m hm
        · obtain rfl : m = (addThread tid tname (freshNode split tid f)).setChildren
              (insertFrames split tid tname rest []) := by simpa using hm
          rw [GraphNode.setChildren_children]
          exact ih [] good_nil

/-! ## Chain lemmas -/

theorem findNode_empty (split : List String) (f : Frame) :
    findNode split f [] = none := by
  rw [findNode]
  split <;> rfl

/-- A thread walking into an empty sibling list lays down its chain. -/
theorem insertFrames_empty_chainT (split : List String) (tid : Nat) (tname : String) :
    ∀ fs : List Frame, insertFrames split tid tname fs [] = chainT split tid tname fs := by
  intro fs
  induction fs with
  | nil => rfl
  | cons f rest ih =>
    rw [insertFrames_cons_new split tid tname f rest [] (findNode_empty split f), ih]
    rfl

theorem nodesAtDepth_append (d : Nat) (l1 l2 : List GraphNode) :
    nodesAtDepth d (l1 ++ l2) = nodesAtDepth d l1 ++ nodesAtDepth d l2 := by
  cases d with
  | zero => rfl
  | succ d => simp [nodesAtDepth]

theorem nodesAtDepth_singleton (d : Nat) (n : GraphNode) :
    nodesAtDepth (d + 1) [n] = nodesAtDepth d n.children := by
  simp [nodesAtDepth]

theorem chainT_nodesAtDepth (split : List String) (tid : Nat) (tname : String) :
    ∀ (fs : List Frame) (d : Nat) (fd : Frame), fs.get? d = some fd →
      ∃ c, nodesAtDepth d (chainT split tid tname fs) = [c] ∧ c.threadIds = [tid] := by
  intro fs
  induction fs with
  | nil => intro d fd h; simp [List.get?] at h
  | cons f rest ih =>
    intro d fd h
    cases d with
    | zero => exact ⟨_, rfl, rfl⟩
    | succ d =>
      rw [chainT, nodesAtDepth_singleton, GraphNode.children_mk]
      exact ih d fd (by simpa using h)

/-- For the fully merged chain: identical memberships everywhere. -/
theorem chainM_nodeAt (tids : List Nat) (tnames : List String) :
    ∀ (fs : List Frame) (p : List Nat) (n : GraphNode),
      nodeAt (chainM tids tnames fs) p = some n →
        n.threadIds = tids ∧ n.threadNames = tnames := by
  intro fs
  induction fs with
  | nil =>
    intro p n h
    rw [show chainM tids tnames [] = [] from rfl, nodeAt_empty_forest] at h
    exact Option.noConfusion h
  | cons f rest ih =>
    intro p n h
    cases p with
    | nil => rw [nodeAt_nil_path] at h; exact Option.noConfusion h
    | cons i p' =>
      cases p' with
      | nil =>
        rw [nodeAt_singleton] at h
        cases i with
        | zero =>
          obtain rfl := Option.some.inj h
          exact ⟨rfl, rfl⟩
        | succ j =>
          rw [show (chainM tids tnames (f :: rest)).get? (j + 1) =
            ([] : List GraphNode).get? j from rfl] at h
          simp [List.get?] at h
      | cons j p'' =>
        cases i with
        | zero =>
          rw [chainM, nodeAt_cons_some
              [GraphNode.mk (canonicalId f)
                (StackFrame.mk f.id f.name f.source f.line f.column tids)
                (chainM tids tnames rest) tids tnames]
              0
              (GraphNode.mk (canonicalId f)
                (StackFrame.mk f.id f.name f.source f.line f.column tids)
                (chainM tids tnames rest) tids tnames) j p'' rfl,
            GraphNode.children_mk] at h
          exact ih _ _ h
        | succ k =>
          rw [chainM, nodeAt_cons_none _ (k + 1) j p''
            (by rw [show ([GraphNode.mk (canonicalId f)
              (StackFrame.mk f.id f.name f.source f.line f.column tids)
              (chainM tids tnames rest) tids tnames]).get? (k + 1) =
                ([] : List GraphNode).get? k from rfl]; simp [List.get?])] at h
          exact Option.noConfusion h

theorem chainM_isChain (tids : List Nat) (tnames : List String) :
    ∀ fs : List Frame, isChainOfLen (chainM tids tnames fs) fs.length = true := by
  intro fs
  induction fs with
  | nil => rfl
  | cons f rest ih => simpa [chainM, isChainOfLen] using ih

/-- The chain of a first thread, when nothing is split and no id
contains the marker, is the merged chain with singleton membership. -/
theorem chainT_eq_chainM (split : List String) (tid : Nat) (tname : String) :
    ∀ fs : List Frame,
      (∀ f ∈ fs, split.contains (canonicalId f) = false) →
      chainT split tid tname fs = chainM [tid] [tname] fs := by
  intro fs
  induction fs with
  | nil => intro _; rfl
  | cons f rest ih =>
    intro hns
    rw [chainT, chainM, ih (fun g hg => hns g (List.mem_cons_of_mem _ hg)),
      if_neg (by rw [hns f (List.mem_cons_self f rest)]; exact Bool.false_ne_true)]

theorem findNode_chainM (split : List String) (f : Frame) (rest : List Frame)
    (tids : List Nat) (tnames : List String)
    (hns : split.contains (canonicalId f) = false)
    (hnm : strIncludes (canonicalId f) splitMarker = false) :
    findNode split f (chainM tids tnames (f :: rest)) =
      some (0, GraphNode.mk (canonicalId f)
        (StackFrame.mk f.id f.name f.source f.line f.column tids)
        (chainM tids tnames rest) tids tnames) := by
  rw [findNode, if_neg (fun hc => by rw [hc] at hns; exact Bool.noConfusion hns),
    chainM, findWithIdx,
    if_pos (by rw [GraphNode.frame_mk, GraphNode.id_mk, isSameFrame_toStackFrame, hnm]; rfl)]

/-- Re-inserting a thread whose frames are exactly the chain's frames
merely extends every membership list. -/
theorem insertFrames_chainM (split : List String) (tid : Nat) (tname : String) :
    ∀ (fs : List Frame) (tids : List Nat) (tnames : List String),
      (∀ f ∈ fs, split.contains (canonicalId f) = false) →
      (∀ f ∈ fs, strIncludes (canonicalId f) splitMarker = false) →
      insertFrames split tid tname fs (chainM tids tnames fs) =
        chainM (pushUnique tids tid)
          (if tids.contains tid then tnames else tnames ++ [tname]) fs := by
  intro fs
  induction fs with
  | nil => intro tids tnames _ _; rfl
  | cons f rest ih =>
    intro tids tnames hns hnm
    have hns' := fun g hg => hns g (List.mem_cons_of_mem f hg)
    have hnm' := fun g hg => hnm g (List.mem_cons_of_mem f hg)
    rw [insertFrames_cons_found split tid tname f rest _ 0 _
      (findNode_chainM split f rest tids tnames
        (hns f (List.mem_cons_self f rest)) (hnm f (List.mem_cons_self f rest)))]
    by_cases ht : tids.contains tid = true
    · have hA : addThread tid tname (GraphNode.mk (canonicalId f)
          (StackFrame.mk f.id f.name f.source f.line f.column tids)
          (chainM tids tnames rest) tids tnames) =
          GraphNode.mk (canonicalId f)
            (StackFrame.mk f.id f.name f.source f.line f.column tids)
            (chainM tids tnames rest) tids tnames := by
        have hmem : tid ∈ tids := by simpa using ht
        simp [addThread, hmem]
      rw [hA, GraphNode.children_mk, ih tids tnames hns' hnm']
      rw [show pushUnique tids tid = tids from by rw [pushUnique, if_pos ht], if_pos ht]
      rfl
    · have hA : addThread tid tname (GraphNode.mk (canonicalId f)
          (StackFrame.mk f.id f.name f.source f.line f.column tids)
          (chainM tids tnames rest) tids tnames) =
          GraphNode.mk (canonicalId f)
            (StackFrame.mk f.id f.name f.source f.line f.column (tids ++ [tid]))
            (chainM tids tnames rest) (tids ++ [tid]) (tnames ++ [tname]) := by
        have hmem : tid ∉ tids := by simpa using ht
        simp [addThread, hmem]
      rw [hA, GraphNode.children_mk, ih tids tnames hns' hnm']
      rw [show pushUnique tids tid = tids ++ [tid] from by rw [pushUnique, if_neg ht],
        if_neg ht]
      rfl

/-- Split enforcement for two identical threads, stated against the
forest state after the first thread's walk: the second thread's walk
leaves two single-thread nodes at the split depth. -/
theorem split_two_threads_aux (split : List String) (t1id t2id : Nat)
    (t1n t2n : String) :
    ∀ (fs : List Frame) (d : Nat) (fd : Frame),
      fs.get? d = some fd →
      split.contains (canonicalId fd) = true →
      ∃ n1 n2,
        n1 ∈ nodesAtDepth d (insertFrames split t2id t2n fs (chainT split t1id t1n fs)) ∧
        n2 ∈ nodesAtDepth d (insertFrames split t2id t2n fs (chainT split t1id t1n fs)) ∧
        n1.threadIds = [t1id] ∧ n2.threadIds = [t2id] := by
  intro fs
  induction fs with
  | nil => intro d fd h _; simp [List.get?] at h
  | cons f rest ih =>
    intro d fd hget hsplit
    cases hfind : findNode split f (chainT split t1id t1n (f :: rest)) with
    | none =>
      rw [insertFrames_cons_new _ _ _ _ _ _ hfind, insertFrames_empty_chainT]
      cases d with
      | zero =>
        refine ⟨GraphNode.mk
            (if split.contains (canonicalId f) then
              canonicalId f ++ splitMarker ++ toString t1id
             else canonicalId f)
            (StackFrame.mk f.id f.name f.source f.line f.column [t1id])
            (chainT split t1id t1n rest) [t1id] [t1n],
          (addThread t2id t2n (freshNode split t2id f)).setChildren
            (chainT split t2id t2n rest), ?_, ?_, rfl, ?_⟩
        · simp [nodesAtDepth, chainT]
        · simp [nodesAtDepth, chainT]
        · exact (newRel_fresh split t2id t2n f (chainT split t2id t2n rest)).2.2.1
      | succ d =>
        have hget' : rest.get? d = some fd := by simpa using hget
        obtain ⟨ca, hca, hcat⟩ := chainT_nodesAtDepth split t1id t1n rest d fd hget'
        obtain ⟨cb, hcb, hcbt⟩ := chainT_nodesAtDepth split t2id t2n rest d fd hget'
        rw [chainT, nodesAtDepth_append, nodesAtDepth_singleton, nodesAtDepth_singleton,
          GraphNode.children_mk, GraphNode.setChildren_children, hca, hcb]
        exact ⟨ca, cb, by simp, by simp, hcat, hcbt⟩
    | some x =>
      obtain ⟨i, n⟩ := x
      obtain ⟨hgi, hsame, hmark, hnsplit⟩ := findNode_some _ _ _ _ _ hfind
      have hi : i = 0 := by
        have hlt := get?_some_lt _ _ _ hgi
        rw [chainT] at hlt
        simp at hlt
        omega
      subst hi
      have hn : n = GraphNode.mk
          (if split.contains (canonicalId f) then
            canonicalId f ++ splitMarker ++ toString t1id
           else canonicalId f)
          (StackFrame.mk f.id f.name f.source f.line f.column [t1id])
          (chainT split t1id t1n rest) [t1id] [t1n] := by
        rw [chainT] at hgi
        simpa using hgi.symm
      subst hn
      cases d with
      | zero =>
        have hfd : f = fd := by simpa using hget
        rw [← hfd] at hsplit
        rw [hsplit] at hnsplit
        exact Bool.noConfusion hnsplit
      | succ d =>
        rw [insertFrames_cons_found _ _ _ _ _ _ _ _ hfind]
        have hset : (chainT split t1id t1n (f :: rest)).set 0
            ((addThread t2id t2n (GraphNode.mk
              (if split.contains (canonicalId f) then
                canonicalId f ++ splitMarker ++ toString t1id
               else canonicalId f)
              (StackFrame.mk f.id f.name f.source f.line f.column [t1id])
              (chainT split t1id t1n rest) [t1id] [t1n])).setChildren
              (insertFrames split t2id t2n rest
                (addThread t2id t2n (GraphNode.mk
                  (if split.contains (canonicalId f) then
                    canonicalId f ++ splitMarker ++ toString t1id
                   else canonicalId f)
                  (StackFrame.mk f.id f.name f.source f.line f.column [t1id])
                  (chainT split t1id t1n rest) [t1id] [t1n])).children)) =
            [(addThread t2id t2n (GraphNode.mk
              (if split.contains (canonicalId f) then
                canonicalId f ++ splitMarker ++ toString t1id
               else canonicalId f)
              (StackFrame.mk f.id f.name f.source f.line f.column [t1id])
              (chainT split t1id t1n rest) [t1id] [t1n])).setChildren
              (insertFrames split t2id t2n rest
                (addThread t2id t2n (GraphNode.mk
                  (if split.contains (canonicalId f) then
                    canonicalId f ++ splitMarker ++ toString t1id
                   else canonicalId f)
                  (StackFrame.mk f.id f.name f.source f.line f.column [t1id])
                  (chainT split t1id t1n rest) [t1id] [t1n])).children)] := by
          rw [chainT]; rfl
        rw [hset, nodesAtDepth_singleton, GraphNode.setChildren_children,
          addThread_children, GraphNode.children_mk]
        exact ih d fd (by simpa using hget) hsplit

/-- Folding identical threads over a fully merged chain only extends
the membership lists. -/
theorem fold_chainM (split : List String) (fs : List Frame)
    (hns : ∀ f ∈ fs, split.contains (canonicalId f) = false)
    (hnm : ∀ f ∈ fs, strIncludes (canonicalId f) splitMarker = false) :
    ∀ (ts : List ThreadData) (tids : List Nat) (tnames : List String),
      (∀ t ∈ ts, t.frames = fs) →
      List.foldl (fun F t => insertFrames split t.id t.name t.frames F)
        (chainM tids tnames fs) ts =
      chainM
        (ts.foldl (fun acc t =>
          if acc.1.contains t.id then acc else (acc.1 ++ [t.id], acc.2 ++ [t.name]))
          (tids, tnames)).1
        (ts.foldl (fun acc t =>
          if acc.1.contains t.id then acc else (acc.1 ++ [t.id], acc.2 ++ [t.name]))
          (tids, tnames)).2 fs := by
  intro ts
  induction ts with
  | nil => intro tids tnames _; rfl
  | cons t ts' ih =>
    intro tids tnames hfr
    simp only [List.foldl_cons]
    rw [hfr t (List.mem_cons_self t ts'), insertFrames_chainM split t.id t.name fs
      tids tnames hns hnm]
    by_cases ht : tids.contains t.id = true
    · rw [show pushUnique tids t.id = tids from by rw [pushUnique, if_pos ht], if_pos ht,
        if_pos ht]
      exact ih tids tnames (fun u hu => hfr u (List.mem_cons_of_mem t hu))
    · rw [show pushUnique tids t.id = tids ++ [t.id] from by rw [pushUnique, if_neg ht],
        if_neg ht, if_neg ht]
      exact ih _ _ (fun u hu => hfr u (List.mem_cons_of_mem t hu))

theorem fold_mem_ids :
    ∀ (ts : List ThreadData) (tids : List Nat) (tnames : List String) (i : Nat),
      i ∈ (ts.foldl (fun acc t =>
          if acc.1.contains t.id then acc else (acc.1 ++ [t.id], acc.2 ++ [t.name]))
          (tids, tnames)).1 ↔ i ∈ tids ∨ ∃ t ∈ ts, t.id = i := by
  intro ts
  induction ts with
  | nil => intro tids tnames i; simp
  | cons t ts' ih =>
    intro tids tnames i
    simp only [List.foldl_cons]
    by_cases ht : tids.contains t.id = true
    · have hmem : t.id ∈ tids := by simpa using ht
      rw [if_pos ht, ih]
      constructor
      · rintro (h | ⟨u, hu, hid⟩)
        · exact Or.inl h
        · exact Or.inr ⟨u, List.mem_cons_of_mem _ hu, hid⟩
      · rintro (h | ⟨u, hu, hid⟩)
        · exact Or.inl h
        · rcases List.mem_cons.mp hu with rfl | hu2
          · exact Or.inl (hid ▸ hmem)
          · exact Or.inr ⟨u, hu2, hid⟩
    · rw [if_neg ht, ih]
      constructor
      · rintro (h | ⟨u, hu, hid⟩)
        · rcases List.mem_append.mp h with h | h
          · exact Or.inl h
          · have hit : i = t.id := by simpa using h
            exact Or.inr ⟨t, List.mem_cons_self t ts', hit.symm⟩
        · exact Or.inr ⟨u, List.mem_cons_of_mem _ hu, hid⟩
      · rintro (h | ⟨u, hu, hid⟩)
        · exact Or.inl (List.mem_append_left _ h)
        · rcases List.mem_cons.mp hu with rfl | hu2
          · exact Or.inl (List.mem_append_right _ (by simp [hid]))
          · exact Or.inr ⟨u, hu2, hid⟩

/-! ## Concrete example inputs -/

/-- A frame with no source object at all. -/
def exNoPath : Frame := ⟨0, "f", none, 1, 1⟩

/-- An otherwise identical frame whose source path is the *empty
string*. -/
def exEmptyPath : Frame := ⟨0, "f", some ⟨some "", none⟩, 1, 1⟩

/-- An otherwise identical frame whose source path is the literal
string `"undefined"`. -/
def exUndefinedPath : Frame := ⟨0, "f", some ⟨some "undefined", none⟩, 1, 1⟩

/-- A frame whose function name contains the split marker. -/
def exMarkName : Frame := ⟨0, "a::split::b", none, 1, 1⟩

/-- An ordinary frame. -/
def exMain : Frame := ⟨10, "main", some ⟨some "main.cpp", none⟩, 1, 1⟩

/-! ## Claim theorems -/

/-- C1 (counterexample): the claim's reading of `sameFrame` — absent
source path normalised to the empty string — disagrees with the code:
a frame with no source and a frame whose path is `""` match under the
spec's normalised identity (`sameFrameSpec`) yet `isSameFrame` returns
`false`, so the claimed "if and only if" fails at this input. -/
theorem C1_counterexample :
    sameFrameSpec (toStackFrame exNoPath) exEmptyPath = true ∧
      isSameFrame (toStackFrame exNoPath) exEmptyPath = false := by
  constructor <;> rfl

/-- C1 (amended): `isSameFrame(a, b)` is true iff function names,
lines, columns and source paths match, where source paths are compared
as *optional* values: two frames both lacking a source path match on
name/line/column alone, and a frame lacking a source path matches no
frame carrying one — not even one whose path is the empty string
(absence is not normalised to `""`). -/
theorem C1_frame_identity :
    (∀ (f1 : StackFrame) (f2 : Frame),
      isSameFrame f1 f2 = true ↔
        (f1.name = f2.name ∧ f1.line = f2.line ∧ f1.column = f2.column ∧
          srcPath f1.source = srcPath f2.source)) ∧
    (∀ (f1 : StackFrame) (f2 : Frame),
      srcPath f1.source = none → srcPath f2.source = none →
      (isSameFrame f1 f2 = true ↔
        (f1.name = f2.name ∧ f1.line = f2.line ∧ f1.column = f2.column))) ∧
    (∀ (f1 : StackFrame) (f2 : Frame) (pth : String),
      srcPath f1.source = none → srcPath f2.source = some pth →
      isSameFrame f1 f2 = false) := by
  refine ⟨isSameFrame_iff, ?_, ?_⟩
  · intro f1 f2 h1 h2
    rw [isSameFrame_iff, h1, h2]
    tauto
  · intro f1 f2 pth h1 h2
    rw [← Bool.not_eq_true]
    intro hc
    obtain ⟨-, -, -, hp⟩ := (isSameFrame_iff f1 f2).mp hc
    rw [h1, h2] at hp
    exact Option.noConfusion hp

/-- C1 witness: the third conjunct applied at a concrete pair — the
no-source frame does not match the empty-string-path frame. -/
theorem C1_frame_identity_witness :
    isSameFrame (toStackFrame exNoPath) exEmptyPath = false :=
  C1_frame_identity.2.2 (toStackFrame exNoPath) exEmptyPath "" rfl rfl

/-- C2 (counterexample): canonical ids are *not* injective up to
`sameFrame`: the absent path interpolates as the string `"undefined"`
(not the empty string the claim states), so a frame with no source and
a frame whose path is literally `"undefined"` share the canonical id
`"undefined:1:1:f"` while `isSameFrame` distinguishes them, refuting
the claimed "if and only if". -/
theorem C2_counterexample :
    canonicalId exNoPath = canonicalId exUndefinedPath ∧
      canonicalId exNoPath = "undefined:1:1:f" ∧
      isSameFrame (toStackFrame exNoPath) exUndefinedPath = false := by
  refine ⟨rfl, rfl, rfl⟩

/-- C2 (amended): the canonical id is a deterministic function of the
tuple (source path rendered as the string `"undefined"` when absent,
line, column, name), and frames equal per `sameFrame` always receive
equal canonical ids; the converse implication is dropped (see the
counterexample). -/
theorem C2_canonical_id :
    (∀ a b : Frame,
      srcPath a.source = srcPath b.source → a.line = b.line → a.column = b.column →
        a.name = b.name → canonicalId a = canonicalId b) ∧
    (∀ a b : Frame,
      isSameFrame (toStackFrame a) b = true → canonicalId a = canonicalId b) := by
  constructor
  · intro a b hp hl hc hn
    rw [canonicalId, canonicalId, hp, hl, hc, hn]
  · intro a b h
    obtain ⟨hn, hl, hc, hp⟩ := (isSameFrame_iff (toStackFrame a) b).mp h
    rw [canonicalId, canonicalId, ← hp, ← hl, ← hc, ← hn]
    rfl

/-- C2 witness: equal frames receive equal canonical ids, at a
concrete input. -/
theorem C2_canonical_id_witness : canonicalId exMain = canonicalId exMain :=
  C2_canonical_id.2 exMain exMain rfl

/-- C7: the empty input yields the empty forest, an input whose
threads all have empty frame sequences yields the empty forest, and
threads with empty frame sequences never affect the result: filtering
them out leaves the forest unchanged. -/
theorem C7_empty_inputs :
    (∀ split : List String, buildGraph [] split = []) ∧
    (∀ (threads : List ThreadData) (split : List String),
      (∀ t ∈ threads, t.frames = []) → buildGraph threads split = []) ∧
    (∀ (threads : List ThreadData) (split : List String),
      buildGraph threads split =
        buildGraph (threads.filter (fun t => !t.frames.isEmpty)) split) := by
  refine ⟨fun _ => rfl, ?_, ?_⟩
  · intro threads split h
    rw [buildGraph]
    induction threads with
    | nil => rfl
    | cons t ts ih =>
      rw [List.foldl_cons, h t (List.mem_cons_self t ts), insertFrames_nil]
      exact ih (fun u hu => h u (List.mem_cons_of_mem t hu))
  · intro threads split
    rw [buildGraph, buildGraph]
    have aux : ∀ (ts : List ThreadData) (F : List GraphNode),
        List.foldl (fun rootNodes thread =>
          insertFrames split thread.id thread.name thread.frames rootNodes) F ts =
        List.foldl (fun rootNodes thread =>
          insertFrames split thread.id thread.name thread.frames rootNodes) F
          (ts.filter (fun t => !t.frames.isEmpty)) := by
      intro ts
      induction ts with
      | nil => intro F; rfl
      | cons t ts ih =>
        intro F
        cases hfr : t.frames with
        | nil =>
          rw [List.filter_cons, if_neg (by rw [hfr]; simp), List.foldl_cons, hfr,
            insertFrames_nil]
          exact ih F
        | cons g gs =>
          rw [List.filter_cons, if_pos (by rw [hfr]; simp), List.foldl_cons,
            List.foldl_cons]
          exact ih _
    exact aux threads []

/-- C7 witness: a thread with an empty frame sequence produces the
empty forest. -/
theorem C7_empty_inputs_witness : buildGraph [⟨1, "T1", []⟩] [] = [] :=
  C7_empty_inputs.2.1 [⟨1, "T1", []⟩] []
    (by intro t ht; simp only [List.mem_singleton] at ht; rw [ht])

/-- C8: `buildGraph` is deterministic — two invocations on equal
snapshots and equal split sets produce structurally identical
(equal) forests.  The embedding is a pure function, mirroring the
source's freedom from global state: the only mutation in the source
is of nodes freshly allocated within the call. -/
theorem C8_deterministic :
    ∀ (t1 t2 : List ThreadData) (s1 s2 : List String),
      t1 = t2 → s1 = s2 → buildGraph t1 s1 = buildGraph t2 s2 := by
  rintro t1 _ s1 _ rfl rfl
  rfl

/-- C8 witness: at a concrete snapshot. -/
theorem C8_deterministic_witness :
    buildGraph [⟨1, "T1", [exMain]⟩] [] = buildGraph [⟨1, "T1", [exMain]⟩] [] :=
  C8_deterministic [⟨1, "T1", [exMain]⟩] [⟨1, "T1", [exMain]⟩] [] [] rfl rfl

/-- C3: split enforcement.  (1) Whenever the current frame's canonical
id is in the split set, the builder never reuses an existing sibling:
it appends a brand-new node whose identity is the canonical id, the
split marker, and the owning thread's id, and whose memberships hold
exactly that one thread.  (2) For two distinct threads with identical
frame sequences whose depth-`d` frame is split, the built forest holds
two distinct single-thread nodes at depth `d`. -/
theorem C3_split_enforcement :
    (∀ (split : List String) (tid : Nat) (tname : String) (f : Frame)
      (rest : List Frame) (nodes : List GraphNode),
      split.contains (canonicalId f) = true →
      insertFrames split tid tname (f :: rest) nodes =
        nodes ++ [GraphNode.mk (canonicalId f ++ splitMarker ++ toString tid)
          (StackFrame.mk f.id f.name f.source f.line f.column [tid])
          (insertFrames split tid tname rest []) [tid] [tname]]) ∧
    (∀ (split : List String) (t1id t2id : Nat) (t1n t2n : String)
      (fs : List Frame) (d : Nat) (fd : Frame),
      fs.get? d = some fd → split.contains (canonicalId fd) = true → t1id ≠ t2id →
      ∃ n1 n2,
        n1 ∈ nodesAtDepth d (buildGraph [⟨t1id, t1n, fs⟩, ⟨t2id, t2n, fs⟩] split) ∧
        n2 ∈ nodesAtDepth d (buildGraph [⟨t1id, t1n, fs⟩, ⟨t2id, t2n, fs⟩] split) ∧
        n1.threadIds = [t1id] ∧ n2.threadIds = [t2id] ∧ n1 ≠ n2) := by
  constructor
  · intro split tid tname f rest nodes h
    rw [insertFrames_cons_new split tid tname f rest nodes
      (findNode_of_split split f nodes h)]
    congr 1
    rw [show addThread tid tname (freshNode split tid f) =
        GraphNode.mk (canonicalId f ++ splitMarker ++ toString tid)
          (StackFrame.mk f.id f.name f.source f.line f.column [tid]) [] [tid] [tname] from by
      have hmem : canonicalId f ∈ split := by simpa using h
      simp [addThread, freshNode, hmem]]
    rfl
  · intro split t1id t2id t1n t2n fs d fd hget hsplit hne
    have hb : buildGraph [⟨t1id, t1n, fs⟩, ⟨t2id, t2n, fs⟩] split =
        insertFrames split t2id t2n fs (chainT split t1id t1n fs) := by
      rw [buildGraph]
      simp only [List.foldl_cons, List.foldl_nil]
      rw [show insertFrames split (ThreadData.mk t1id t1n fs).id
          (ThreadData.mk t1id t1n fs).name (ThreadData.mk t1id t1n fs).frames [] =
        chainT split t1id t1n fs from insertFrames_empty_chainT split t1id t1n fs]
    rw [hb]
    obtain ⟨n1, n2, h1, h2, ht1, ht2⟩ :=
      split_two_threads_aux split t1id t2id t1n t2n fs d fd hget hsplit
    refine ⟨n1, n2, h1, h2, ht1, ht2, ?_⟩
    intro he
    rw [he, ht2] at ht1
    injection ht1 with hid _
    exact hne hid.symm

/-- C3 witness: two threads, one shared frame whose canonical id is in
the split set: two distinct single-thread nodes at depth 0. -/
theorem C3_split_enforcement_witness :
    ∃ n1 n2,
      n1 ∈ nodesAtDepth 0
        (buildGraph [⟨1, "T1", [exMain]⟩, ⟨2, "T2", [exMain]⟩] ["main.cpp:1:1:main"]) ∧
      n2 ∈ nodesAtDepth 0
        (buildGraph [⟨1, "T1", [exMain]⟩, ⟨2, "T2", [exMain]⟩] ["main.cpp:1:1:main"]) ∧
      n1.threadIds = [1] ∧ n2.threadIds = [2] ∧ n1 ≠ n2 :=
  C3_split_enforcement.2 ["main.cpp:1:1:main"] 1 2 "T1" "T2" [exMain] 0 exMain
    rfl rfl (by decide)

/-- C4 (counterexample): under the spec's notion of canonical identity
("source path *or empty string if absent*, line, column, name") the
invariant fails: a no-source frame and an empty-string-path frame
yield two sibling roots, both free of the split marker, with equal
normalised keys (`specKey`). -/
theorem C4_counterexample :
    buildGraph [⟨1, "T1", [exNoPath]⟩, ⟨2, "T2", [exEmptyPath]⟩] [] =
      [GraphNode.mk "undefined:1:1:f" (StackFrame.mk 0 "f" none 1 1 [1]) [] [1] ["T1"],
       GraphNode.mk ":1:1:f" (StackFrame.mk 0 "f" (some ⟨some "", none⟩) 1 1 [2])
         [] [2] ["T2"]] ∧
    strIncludes "undefined:1:1:f" splitMarker = false ∧
    strIncludes ":1:1:f" splitMarker = false ∧
    specKey (StackFrame.mk 0 "f" none 1 1 [1]) =
      specKey (StackFrame.mk 0 "f" (some ⟨some "", none⟩) 1 1 [2]) ∧
    GraphNode.mk "undefined:1:1:f" (StackFrame.mk 0 "f" none 1 1 [1]) [] [1] ["T1"] ≠
      GraphNode.mk ":1:1:f" (StackFrame.mk 0 "f" (some ⟨some "", none⟩) 1 1 [2])
        [] [2] ["T2"] := by
  refine ⟨rfl, rfl, rfl, rfl, ?_⟩
  intro h
  injection h with _ _ _ h4 _
  exact absurd h4 (by decide)

/-- C4 (amended): within every sibling list of every forest built by
`buildGraph`, no two siblings free of the split marker share a
call-site key, where the key (`frameKey`) compares the source path as
an optional value — the code's `isSameFrame` notion — rather than the
spec's empty-string-normalised key. -/
theorem C4_nonsplit_siblings :
    ∀ (threads : List ThreadData) (split : List String),
      Good (buildGraph threads split) := by
  intro threads split
  rw [buildGraph]
  have aux : ∀ (ts : List ThreadData) (F : List GraphNode), Good F →
      Good (List.foldl (fun rootNodes thread =>
        insertFrames split thread.id thread.name thread.frames rootNodes) F ts) := by
    intro ts
    induction ts with
    | nil => intro F h; exact h
    | cons t ts ih =>
      intro F h
      rw [List.foldl_cons]
      exact ih _ (insertFrames_good split t.id t.name t.frames F h)
  exact aux threads [] good_nil

/-- C5: a node's thread-id set consists of exactly the input threads
whose recorded walk (the sequence of sibling positions the builder
routes that thread's frame sequence through) passes through the node's
position — i.e. the threads whose frame sequence passes through this
exact root-to-node ancestor chain. -/
theorem C5_membership :
    ∀ (threads : List ThreadData) (split : List String) (p : List Nat) (n : GraphNode),
      nodeAt (buildGraph threads split) p = some n →
      ∀ i, i ∈ n.threadIds ↔
        ∃ pr ∈ (buildGraphP threads split).2, pr.1.id = i ∧ pathLeads p pr.2 :=
  fun threads split p n h => buildGraph_membership threads split p n h

/-- C5 witness: at the shared root of two identical threads. -/
theorem C5_membership_witness :
    1 ∈ (GraphNode.mk "main.cpp:1:1:main"
        (StackFrame.mk 10 "main" (some ⟨some "main.cpp", none⟩) 1 1 [1, 2])
        [] [1, 2] ["T1", "T2"]).threadIds ↔
      ∃ pr ∈ (buildGraphP [⟨1, "T1", [exMain]⟩, ⟨2, "T2", [exMain]⟩] []).2,
        pr.1.id = 1 ∧ pathLeads [0] pr.2 :=
  C5_membership [⟨1, "T1", [exMain]⟩, ⟨2, "T2", [exMain]⟩] [] [0]
    (GraphNode.mk "main.cpp:1:1:main"
      (StackFrame.mk 10 "main" (some ⟨some "main.cpp", none⟩) 1 1 [1, 2])
      [] [1, 2] ["T1", "T2"]) rfl 1

/-- C6 (counterexample): two threads with the identical non-empty
frame sequence `[exMarkName]`, no canonical id in the (empty) split
set — the claim demands a single root-to-leaf chain, but the function
name contains `"::split::"`, the builder's marker check prevents the
merge, and two roots result. -/
theorem C6_counterexample :
    (buildGraph [⟨1, "T1", [exMarkName]⟩, ⟨2, "T2", [exMarkName]⟩] []).length = 2 ∧
    isChainOfLen (buildGraph [⟨1, "T1", [exMarkName]⟩, ⟨2, "T2", [exMarkName]⟩] [])
      1 = false := by
  exact ⟨rfl, rfl⟩

/-- C6 (amended): for a non-empty input of threads with identical
non-empty frame sequences, none of whose canonical ids is in the split
set *and none of whose canonical ids contains the split marker
`"::split::"`*, the forest is a single root-to-leaf chain and every
node's membership set is the full set of contributing thread ids. -/
theorem C6_full_merge :
    ∀ (split : List String) (fs : List Frame) (t : ThreadData) (ts : List ThreadData),
      (∀ u ∈ t :: ts, u.frames = fs) →
      fs ≠ [] →
      (∀ f ∈ fs, split.contains (canonicalId f) = false) →
      (∀ f ∈ fs, strIncludes (canonicalId f) splitMarker = false) →
      (buildGraph (t :: ts) split).length = 1 ∧
      isChainOfLen (buildGraph (t :: ts) split) fs.length = true ∧
      (∀ p n, nodeAt (buildGraph (t :: ts) split) p = some n →
        ∀ i, i ∈ n.threadIds ↔ ∃ u ∈ t :: ts, u.id = i) := by
  intro split fs t ts hfr hfs hns hnm
  have hb : buildGraph (t :: ts) split =
      chainM
        (ts.foldl (fun acc u =>
          if acc.1.contains u.id then acc else (acc.1 ++ [u.id], acc.2 ++ [u.name]))
          ([t.id], [t.name])).1
        (ts.foldl (fun acc u =>
          if acc.1.contains u.id then acc else (acc.1 ++ [u.id], acc.2 ++ [u.name]))
          ([t.id], [t.name])).2 fs := by
    rw [buildGraph, List.foldl_cons, hfr t (List.mem_cons_self t ts),
      insertFrames_empty_chainT, chainT_eq_chainM split t.id t.name fs hns]
    exact fold_chainM split fs hns hnm ts [t.id] [t.name]
      (fun u hu => hfr u (List.mem_cons_of_mem t hu))
  refine ⟨?_, ?_, ?_⟩
  · rw [hb]
    cases fs with
    | nil => exact absurd rfl hfs
    | cons g gs => rfl
  · rw [hb]
    exact chainM_isChain _ _ fs
  · intro p n hat i
    rw [hb] at hat
    obtain ⟨hti, -⟩ := chainM_nodeAt _ _ fs p n hat
    rw [hti, fold_mem_ids]
    constructor
    · rintro (h | ⟨u, hu, hid⟩)
      · have hit : i = t.id := by simpa using h
        exact ⟨t, List.mem_cons_self t ts, hit.symm⟩
      · exact ⟨u, List.mem_cons_of_mem t hu, hid⟩
    · rintro ⟨u, hu, hid⟩
      rcases List.mem_cons.mp hu with rfl | hu2
      · exact Or.inl (by simp [hid])
      · exact Or.inr ⟨u, hu2, hid⟩

/-- C6 witness: two identical ordinary threads merge into one chain of
length one whose root carries both thread ids. -/
theorem C6_full_merge_witness :
    (buildGraph [⟨1, "T1", [exMain]⟩, ⟨2, "T2", [exMain]⟩] []).length = 1 ∧
    isChainOfLen (buildGraph [⟨1, "T1", [exMain]⟩, ⟨2, "T2", [exMain]⟩] [])
      ([exMain].length) = true ∧
    (∀ p n, nodeAt (buildGraph [⟨1, "T1", [exMain]⟩, ⟨2, "T2", [exMain]⟩] []) p = some n →
      ∀ i, i ∈ n.threadIds ↔
        ∃ u ∈ [(⟨1, "T1", [exMain]⟩ : ThreadData), ⟨2, "T2", [exMain]⟩], u.id = i) :=
  C6_full_merge [] [exMain] ⟨1, "T1", [exMain]⟩ [⟨2, "T2", [exMain]⟩]
    (by decide) (by decide) (by decide) (by decide)

/-- C9: on every node of every built forest, the thread-id list stored
on the representative frame equals the node's own membership list
(both are extended in lock-step during the build). -/
theorem C9_frame_thread_ids :
    ∀ (threads : List ThreadData) (split : List String) (p : List Nat) (n : GraphNode),
      nodeAt (buildGraph threads split) p = some n →
      n.frame.threadIds = n.threadIds := by
  intro threads split
  rw [buildGraph]
  have aux : ∀ (ts : List ThreadData) (F : List GraphNode),
      (∀ p n, nodeAt F p = some n → n.frame.threadIds = n.threadIds) →
      ∀ p n, nodeAt (List.foldl (fun rootNodes thread =>
          insertFrames split thread.id thread.name thread.frames rootNodes) F ts) p =
        some n → n.frame.threadIds = n.threadIds := by
    intro ts
    induction ts with
    | nil => intro F h; exact h
    | cons t ts ih =>
      intro F h
      rw [List.foldl_cons]
      exact ih _ (insert_frame_tids_step split t.id t.name t.frames F h)
  exact aux threads []
    (fun p n h => by rw [nodeAt_empty_forest] at h; exact Option.noConfusion h)

/-- C9 witness: at the shared root of two identical threads. -/
theorem C9_frame_thread_ids_witness :
    (GraphNode.mk "main.cpp:1:1:main"
        (StackFrame.mk 10 "main" (some ⟨some "main.cpp", none⟩) 1 1 [1, 2])
        [] [1, 2] ["T1", "T2"]).frame.threadIds =
      (GraphNode.mk "main.cpp:1:1:main"
        (StackFrame.mk 10 "main" (some ⟨some "main.cpp", none⟩) 1 1 [1, 2])
        [] [1, 2] ["T1", "T2"]).threadIds :=
  C9_frame_thread_ids [⟨1, "T1", [exMain]⟩, ⟨2, "T2", [exMain]⟩] [] [0]
    (GraphNode.mk "main.cpp:1:1:main"
      (StackFrame.mk 10 "main" (some ⟨some "main.cpp", none⟩) 1 1 [1, 2])
      [] [1, 2] ["T1", "T2"]) rfl

/-- C10: reuse changes memberships only.  (1) The membership update
(`addThread`) leaves the node's id, its frame's fixed fields, and its
children untouched.  (2) A whole later walk leaves every existing
node's id and frame core unchanged at its position.  (3) A freshly
created node's representative frame is exactly the supplied frame
(with empty memberships), so a node's frame always stems from the
first thread that created it. -/
theorem C10_reuse_only_membership :
    (∀ (tid : Nat) (tname : String) (n : GraphNode),
      (addThread tid tname n).id = n.id ∧
      frameCore (addThread tid tname n).frame = frameCore n.frame ∧
      (addThread tid tname n).children = n.children) ∧
    (∀ (split : List String) (tid : Nat) (tname : String) (fs : List Frame)
      (F : List GraphNode) (p : List Nat) (n : GraphNode),
      nodeAt F p = some n →
      ∃ n', nodeAt (insertFrames split tid tname fs F) p = some n' ∧
        n'.id = n.id ∧ frameCore n'.frame = frameCore n.frame) ∧
    (∀ (split : List String) (tid : Nat) (f : Frame),
      (freshNode split tid f).frame =
        StackFrame.mk f.id f.name f.source f.line f.column []) := by
  refine ⟨?_, insertFrames_preserves_core, fun _ _ _ => rfl⟩
  intro tid tname n
  exact ⟨addThread_id .., addThread_frameCore .., addThread_children ..⟩

/-- C10 witness: inserting a second thread over an existing root keeps
that root's id and frame core. -/
theorem C10_reuse_only_membership_witness :
    ∃ n', nodeAt (insertFrames [] 2 "T2" [exMain]
        [GraphNode.mk "main.cpp:1:1:main"
          (StackFrame.mk 10 "main" (some ⟨some "main.cpp", none⟩) 1 1 [1])
          [] [1] ["T1"]]) [0] = some n' ∧
      n'.id = (GraphNode.mk "main.cpp:1:1:main"
          (StackFrame.mk 10 "main" (some ⟨some "main.cpp", none⟩) 1 1 [1])
          [] [1] ["T1"]).id ∧
      frameCore n'.frame = frameCore (GraphNode.mk "main.cpp:1:1:main"
          (StackFrame.mk 10 "main" (some ⟨some "main.cpp", none⟩) 1 1 [1])
          [] [1] ["T1"]).frame :=
  C10_reuse_only_membership.2.1 [] 2 "T2" [exMain]
    [GraphNode.mk "main.cpp:1:1:main"
      (StackFrame.mk 10 "main" (some ⟨some "main.cpp", none⟩) 1 1 [1])
      [] [1] ["T1"]] [0]
    (GraphNode.mk "main.cpp:1:1:main"
      (StackFrame.mk 10 "main" (some ⟨some "main.cpp", none⟩) 1 1 [1])
      [] [1] ["T1"]) rfl
